import Mathlib

/-!
Verification of the AnokiwaveChipDemo beam-steering core (`beamdef.py`).

Shallow embedding of the beam-definition engine: conversion of a spherical
steering direction into AWMF-0108 phase settings, per-element calibration,
the raw phase field, the gain field, and the array-factor sampling used for
visualization.  Python floats are modelled as real numbers; fallible Python
operations (dict indexing raising `KeyError`, `min` of an empty sequence
raising `ValueError`, division by zero raising `ZeroDivisionError`) are
modelled with `Option`.
-/

set_option autoImplicit false

open Real

/-- The four quadrant labels used as element identifiers
(`NW = "NW"` etc. in `beamdef.py`). -/
inductive Quadrant where
  | NE | NW | SE | SW
deriving DecidableEq, Repr

/-- Source `math.radians`: degrees to radians. -/
noncomputable def degToRad (x : ℝ) : ℝ := x * π / 180

/-- Python's `%` on floats with a positive modulus: `a - b * floor (a / b)`,
which lands in `[0, b)` for `b > 0`. -/
noncomputable def pyMod (a b : ℝ) : ℝ := a - b * ⌊a / b⌋

/-- Python 3's built-in `round` on floats: round half to even. -/
noncomputable def pyRound (x : ℝ) : ℤ :=
  if Int.fract x < 1 / 2 then ⌊x⌋
  else if 1 / 2 < Int.fract x then ⌊x⌋ + 1
  else if Even ⌊x⌋ then ⌊x⌋ else ⌊x⌋ + 1

/-- Source `math.trunc`: truncation toward zero. -/
noncomputable def realTrunc (x : ℝ) : ℤ := if 0 ≤ x then ⌊x⌋ else ⌈x⌉

/-- Python division, raising `ZeroDivisionError` on a zero divisor
(modelled as `none`). -/
noncomputable def pyDiv (a b : ℝ) : Option ℝ := if b = 0 then none else some (a / b)

/-- Source `BeamDefinition._roundToNearest(x, multiple) = multiple * round(x / multiple)`. -/
noncomputable def roundToNearest (x multiple : ℝ) : ℝ :=
  multiple * (pyRound (x / multiple) : ℝ)

/-- Source `BeamDefinition._radiansToAwmf0108`: reduce into `[0, 2*pi)`, round to the
nearest multiple of `interval = phaseControlMax / phaseControlRange = 2*pi/32`,
divide by `interval` and truncate, and clamp a boundary result of `32` to `0`. -/
noncomputable def radiansToAwmf0108 (rads : ℝ) : ℤ :=
  let interval : ℝ := 2 * π / 32
  let fixed : ℝ := pyMod rads (2 * π)
  let val : ℤ := realTrunc (roundToNearest fixed interval / interval)
  if val = 32 then 0 else val

/-- Source `min(keys, key=lambda x: abs(x - setting))` over the `(key, offset)` pairs of a
calibration entry: Python's `min` keeps the first element among ties, replacing the
current best only on a strictly smaller key value. `none` on an empty entry
(`ValueError` in Python). -/
def minByAbsDiff (setting : ℤ) : List (ℤ × ℤ) → Option (ℤ × ℤ)
  | [] => none
  | p :: ps =>
      some (ps.foldl (fun b a => if |a.1 - setting| < |b.1 - setting| then a else b) p)

/-- A loaded phase-calibration table: quadrant label to a list of
`(setting, correction)` pairs, in dict iteration (= insertion) order.
The empty list models a falsy `calMap` (`None` or `{}`). -/
abbrev CalMap := List (Quadrant × List (ℤ × ℤ))

/-- Source `BeamDefinition._applyCalibration`: if the calibration map is truthy, index it at
the element's quadrant (`KeyError`, i.e. `none`, when the quadrant is missing), pick
the entry key closest to `setting` (`ValueError`, i.e. `none`, on an empty entry),
and return `(setting - offset) % 32`; otherwise return `setting` unmodified. -/
def applyCalibration (quadrant : Quadrant) (setting : ℤ) (calMap : CalMap) : Option ℤ :=
  if calMap ≠ [] then
    (calMap.lookup quadrant).bind fun inner =>
      (minByAbsDiff setting inner).map fun closest => (setting - closest.2) % 32
  else
    some setting

/-- Source `dict(zip(keys, vals))` built by insertion in list order: a later binding of the
same key overwrites an earlier one. -/
def pyDict (pairs : List (Quadrant × ℝ)) : Quadrant → Option ℝ :=
  pairs.foldl (fun f kv => fun q => if q = kv.1 then some kv.2 else f q) (fun _ => none)

/-- First column of the phase-offset field: `offsets[i][0]`, accumulating
`ns_phaseOffset` down the rows (`offsets[0][0] = 0`). -/
noncomputable def colOffset0 (ns : ℝ) : ℕ → ℝ
  | 0 => 0
  | i + 1 => colOffset0 ns i + ns

/-- The phase-offset recurrence of `getPhaseSettings`: each row starts from the
first-column value and accumulates `ew_phaseOffset` across the columns. -/
noncomputable def offsetAt (ns ew : ℝ) (i : ℕ) : ℕ → ℝ
  | 0 => colOffset0 ns i
  | j + 1 => offsetAt ns ew i j + ew

/-- The raw (pre-inversion) phase field as a rows-by-cols list of lists.  The
imperative fill loop of `getPhaseSettings` only ever reads entries it has already
written, so it computes exactly `offsetAt` at every position. -/
noncomputable def rawField (ns ew : ℝ) (rows cols : ℕ) : List (List ℝ) :=
  (List.range rows).map fun i => (List.range cols).map fun j => offsetAt ns ew i j

/-- The in-place loop `offsets[i][j] += pi if antennaInvert[i][j]`.  For matching
dimensions this is a pointwise `zipWith`; Python raises `IndexError` on a mask that
is too small, a case outside every claim's hypotheses. -/
noncomputable def invertField (offsets : List (List ℝ)) (invert : List (List Bool)) :
    List (List ℝ) :=
  List.zipWith (fun orow irow => List.zipWith (fun o b => if b then o + π else o) orow irow)
    offsets invert

/-- The mutable state of a `BeamDefinition` object: steering request (already in
radians), antenna geometry, memoized results, and the loaded calibration table. -/
structure BeamState where
  theta : ℝ
  phi : ℝ
  beamStrength : ℝ
  waveLength : ℝ
  antennaGrid : List (List Quadrant)
  antennaInvert : List (List Bool)
  antennaSpacing : ℝ
  phaseSettings : List ℤ
  phaseSettingsRaw : List (List ℝ)
  gainSettings : List (List ℝ)
  phaseCal : CalMap

/-- Source `BeamDefinition.__init__`: angles converted to radians (no normalization),
default 1x4 antenna grid and inversion pattern, 5.4 mm spacing, empty caches.
Loading the calibration file is an external collaborator; the loaded table (or
the empty table, on `IOError`) is injected as `phaseCal`. -/
noncomputable def mkBeamDefinition (theta phi waveLength : ℝ) (phaseCal : CalMap)
    (beamStrength : ℝ) : BeamState :=
  { theta := degToRad theta
    phi := degToRad phi
    beamStrength := beamStrength
    waveLength := waveLength
    antennaGrid := [[Quadrant.NE, Quadrant.NW, Quadrant.SE, Quadrant.SW]]
    antennaInvert := [[true, false, true, false]]
    antennaSpacing := 5.4 * (10 : ℝ) ^ (-3 : ℤ)
    phaseSettings := []
    phaseSettingsRaw := []
    gainSettings := []
    phaseCal := phaseCal }

/-- Source `ew_phaseOffset = -k * d * sin(atan(sin(phi) * sin(theta) / cos(theta)))`
with `k = 2 * pi / waveLength`, `d = antennaSpacing`. -/
noncomputable def ewPhaseOffset (st : BeamState) : ℝ :=
  -(2 * π / st.waveLength) * st.antennaSpacing *
    Real.sin (arctan (Real.sin st.phi * Real.sin st.theta / Real.cos st.theta))

/-- Source `ns_phaseOffset = -k * d * sin(atan(cos(phi) * sin(theta) / cos(theta)))`. -/
noncomputable def nsPhaseOffset (st : BeamState) : ℝ :=
  -(2 * π / st.waveLength) * st.antennaSpacing *
    Real.sin (arctan (Real.cos st.phi * Real.sin st.theta / Real.cos st.theta))

/-- The raw phase field computed by `getPhaseSettings` (before inversion), with
dimensions `len(antennaGrid)` by `len(antennaGrid[0])`. -/
noncomputable def computeRawField (st : BeamState) : List (List ℝ) :=
  rawField (nsPhaseOffset st) (ewPhaseOffset st) st.antennaGrid.length
    st.antennaGrid.headI.length

/-- A Python list comprehension whose body may raise: the first failure aborts the
whole comprehension. -/
def mapOpt (f : Quadrant → Option ℤ) : List Quadrant → Option (List ℤ)
  | [] => some []
  | q :: qs => (f q).bind fun v => (mapOpt f qs).map fun vs => v :: vs

/-- The zipped association list `zip(flatten(antennaGrid), flatten(offsets))` built
by `getPhaseSettings` after inversion. -/
noncomputable def zipPairs (st : BeamState) : List (Quadrant × ℝ) :=
  st.antennaGrid.flatten.zip ((invertField (computeRawField st) st.antennaInvert).flatten)

/-- The output-format conversion of `getPhaseSettings`:
`[_applyCalibration(x, s_offsets[x], phaseCal) for x in [NE, SE, SW, NW]]`, where
`s_offsets[x]` quantizes the dict entry for `x` (`KeyError`, i.e. `none`, when a
label never occurs in the grid). -/
noncomputable def computeQuantized (st : BeamState) : Option (List ℤ) :=
  let d := pyDict (zipPairs st)
  mapOpt
    (fun q => (d q).bind fun v => applyCalibration q (radiansToAwmf0108 v) st.phaseCal)
    [Quadrant.NE, Quadrant.SE, Quadrant.SW, Quadrant.NW]

/-- Source `BeamDefinition.getPhaseSettings`: return the cached list when nonempty;
otherwise store the raw field, then quantize, calibrate and cache.  On a lookup
failure the raw field has already been stored when the exception propagates. -/
noncomputable def getPhaseSettingsRun (st : BeamState) : Option (List ℤ) × BeamState :=
  if st.phaseSettings ≠ [] then (some st.phaseSettings, st)
  else
    let st1 := { st with phaseSettingsRaw := computeRawField st }
    match computeQuantized st with
    | some ns => (some ns, { st1 with phaseSettings := ns })
    | none => (none, st1)

/-- Source `BeamDefinition.getRawPhaseSettings`: computes the full phase-settings path
first when `phaseSettingsRaw` is empty (propagating its exception), then returns
`phaseSettingsRaw`. -/
noncomputable def getRawPhaseSettingsRun (st : BeamState) :
    Option (List (List ℝ)) × BeamState :=
  if st.phaseSettingsRaw = [] then
    let r := getPhaseSettingsRun st
    (r.1.map fun _ => r.2.phaseSettingsRaw, r.2)
  else (some st.phaseSettingsRaw, st)

/-- The uncached computation of `getRelativeGain`:
`[[beamStrength / beamStrength for y in range(ydim)] for x in range(xdim)]`.
When the grid has no element the division is never executed. -/
noncomputable def computeGains (st : BeamState) : Option (List (List ℝ)) :=
  let xdim := st.antennaGrid.length
  let ydim := st.antennaGrid.headI.length
  if xdim = 0 ∨ ydim = 0 then some (List.replicate xdim (List.replicate ydim 0))
  else (pyDiv st.beamStrength st.beamStrength).map fun v =>
    List.replicate xdim (List.replicate ydim v)

/-- Source `BeamDefinition.getRelativeGain`: return the cached field when nonempty,
otherwise compute and cache it. -/
noncomputable def getRelativeGainRun (st : BeamState) :
    Option (List (List ℝ)) × BeamState :=
  if st.gainSettings ≠ [] then (some st.gainSettings, st)
  else
    match computeGains st with
    | some g => (some g, { st with gainSettings := g })
    | none => (none, st)

/-- Source `BeamDefinition.setAntenna`: replace the geometry and clear `phaseSettings` and
`gainSettings`.  `phaseSettingsRaw` is left untouched. -/
def setAntenna (st : BeamState) (grid : List (List Quadrant))
    (invertPattern : List (List Bool)) (spacing : ℝ) : BeamState :=
  { st with
    antennaGrid := grid
    antennaSpacing := spacing
    antennaInvert := invertPattern
    phaseSettings := []
    gainSettings := [] }

/-- Source `BeamDefinition._calculateArrayFactor`: coherent double sum of
`I[n][m] * exp(1j * (d[n][m] + costerm + sinterm))` over the grid dimensions. -/
noncomputable def calculateArrayFactor (st : BeamState) (theta phi : ℝ)
    (gains dfield : List (List ℝ)) (waveLength : ℝ) : ℂ :=
  let dist := st.antennaSpacing
  let k := 2 * π / waveLength
  (List.range st.antennaGrid.length).foldl
    (fun acc n =>
      (List.range st.antennaGrid.headI.length).foldl
        (fun acc2 m =>
          let costerm : ℝ := k * dist * (n : ℕ) * Real.sin theta * Real.cos phi
          let sinterm : ℝ := k * dist * (m : ℕ) * Real.sin theta * Real.sin phi
          acc2 + ((gains.getD n []).getD m 0 : ℝ) *
            Complex.exp (Complex.I * (((dfield.getD n []).getD m 0 : ℝ) + costerm + sinterm)))
        acc)
    0

/-- The sample list of `generateAllAF` on the default `absAf=True` path: theta
outermost, phi innermost.  Over real arithmetic the `while t < t_max : t += t_d`
loop with `t_d = t_max / n_theta` executes exactly `n_theta` times and visits
`t = i * t_d` (`n = 0` gives Python's `ZeroDivisionError`, outside every claim). -/
noncomputable def afSamplePoints (st : BeamState) (n_theta n_phi : ℕ) (backLobes : Bool)
    (gains dfield : List (List ℝ)) : List (ℝ × ℝ × ℝ) :=
  let t_max : ℝ := if backLobes then 180 else 90
  let p_max : ℝ := 360
  let t_d := t_max / n_theta
  let p_d := p_max / n_phi
  ((List.range n_theta).map fun ti =>
    (List.range n_phi).map fun pj =>
      let t := (ti : ℝ) * t_d
      let p := (pj : ℝ) * p_d
      (t, p, Complex.abs
        (calculateArrayFactor st (degToRad t) (degToRad p) gains dfield st.waveLength))).flatten

/-- The `af_max` tracking of `generateAllAF`: starts at `-1` and replaces the
current value only when a sample's absolute value strictly exceeds the absolute
value of the current one. -/
noncomputable def afMagFold (points : List (ℝ × ℝ × ℝ)) : ℝ :=
  points.foldl (fun cur tpa => if |tpa.2.2| > |cur| then tpa.2.2 else cur) (-1)

/-- The normalization pass of `generateAllAF`:
`[(t, p, a / abs(af_max)) for (t, p, a) in points]`. -/
noncomputable def normalizeAf (points : List (ℝ × ℝ × ℝ)) : List (ℝ × ℝ × ℝ) :=
  points.map fun tpa => (tpa.1, tpa.2.1, tpa.2.2 / |afMagFold points|)

/-- Source `BeamDefinition.generateAllAF` on the default `absAf=True` path: gains and raw
phases are fetched (and memoized) through the getters, the grid of samples is
enumerated, and the result is optionally normalized. -/
noncomputable def generateAllAFRun (st : BeamState) (n_theta n_phi : ℕ)
    (normalized backLobes : Bool) : Option (List (ℝ × ℝ × ℝ)) × BeamState :=
  let rg := getRelativeGainRun st
  let rr := getRawPhaseSettingsRun rg.2
  match rg.1, rr.1 with
  | some gains, some dfield =>
      let pts := afSamplePoints rr.2 n_theta n_phi backLobes gains dfield
      (some (if normalized then normalizeAf pts else pts), rr.2)
  | _, _ => (none, rr.2)

/-- The input regulation of `BeamDemo.sketchAfPattern`: the phi spin-box value is
reduced with `% 360` whenever it lies outside `[0, 360)`. -/
noncomputable def regulatePhi (phi : ℝ) : ℝ :=
  if phi < 0 ∨ 360 ≤ phi then pyMod phi 360 else phi

/-- A calibration table is usable for a quadrant when it is absent altogether or
has a nonempty entry for that quadrant. -/
def calEntryOk (calMap : CalMap) (q : Quadrant) : Prop :=
  calMap = [] ∨ ∃ inner, calMap.lookup q = some inner ∧ inner ≠ []

/-! ## Arithmetic helper lemmas -/

theorem pyRound_eq_floor_or_ceil (x : ℝ) : pyRound x = ⌊x⌋ ∨ pyRound x = ⌊x⌋ + 1 := by
  unfold pyRound
  split
  · exact Or.inl rfl
  · split
    · exact Or.inr rfl
    · split
      · exact Or.inl rfl
      · exact Or.inr rfl

theorem pyRound_intCast (n : ℤ) : pyRound (n : ℝ) = n := by
  unfold pyRound
  rw [Int.fract_intCast, Int.floor_intCast]
  norm_num

theorem pyMod_nonneg (a : ℝ) {b : ℝ} (hb : 0 < b) : 0 ≤ pyMod a b := by
  unfold pyMod
  have h2 : b * (⌊a / b⌋ : ℝ) ≤ b * (a / b) :=
    mul_le_mul_of_nonneg_left (Int.floor_le _) hb.le
  have h3 : b * (a / b) = a := by field_simp
  linarith

theorem pyMod_lt (a : ℝ) {b : ℝ} (hb : 0 < b) : pyMod a b < b := by
  unfold pyMod
  have h2 : b * (a / b) < b * ((⌊a / b⌋ : ℝ) + 1) :=
    mul_lt_mul_of_pos_left (Int.lt_floor_add_one _) hb
  have h3 : b * (a / b) = a := by field_simp
  nlinarith

theorem pyMod_eq_self {a b : ℝ} (h0 : 0 ≤ a) (hab : a < b) : pyMod a b = a := by
  unfold pyMod
  have hb : 0 < b := lt_of_le_of_lt h0 hab
  have hfl : ⌊a / b⌋ = 0 := by
    rw [Int.floor_eq_zero_iff]
    exact ⟨div_nonneg h0 hb.le, (div_lt_one hb).mpr hab⟩
  rw [hfl]
  simp

theorem realTrunc_intCast (n : ℤ) : realTrunc (n : ℝ) = n := by
  unfold realTrunc
  split <;> simp

/-- The divide-and-truncate step of `_radiansToAwmf0108` undoes the
multiply-by-`interval` of `_roundToNearest`, so the quantizer is the rounded ratio
`round(fixed / interval)` with the boundary value `32` clamped to `0`. -/
theorem radiansToAwmf0108_eq_pyRound (rads : ℝ) :
    radiansToAwmf0108 rads =
      if pyRound (pyMod rads (2 * π) / (2 * π / 32)) = 32 then 0
      else pyRound (pyMod rads (2 * π) / (2 * π / 32)) := by
  have hI : (0 : ℝ) < 2 * π / 32 := by positivity
  simp only [radiansToAwmf0108, roundToNearest]
  rw [mul_div_cancel_left₀ _ hI.ne', realTrunc_intCast]

theorem radiansToAwmf0108_mem (rads : ℝ) :
    0 ≤ radiansToAwmf0108 rads ∧ radiansToAwmf0108 rads ≤ 31 := by
  rw [radiansToAwmf0108_eq_pyRound]
  have h2pi : (0 : ℝ) < 2 * π := by positivity
  have hI : (0 : ℝ) < 2 * π / 32 := by positivity
  set y := pyMod rads (2 * π) / (2 * π / 32) with hy
  have hy0 : 0 ≤ y := div_nonneg (pyMod_nonneg _ h2pi) hI.le
  have hylt : y < 32 := by
    rw [hy, div_lt_iff₀ hI]
    calc pyMod rads (2 * π) < 2 * π := pyMod_lt _ h2pi
    _ = 32 * (2 * π / 32) := by ring
  have hfl0 : 0 ≤ ⌊y⌋ := Int.floor_nonneg.mpr hy0
  have hfl31 : ⌊y⌋ < 32 := Int.floor_lt.mpr (by exact_mod_cast hylt)
  by_cases h32 : pyRound y = 32
  · rw [if_pos h32]
    norm_num
  · rw [if_neg h32]
    rcases pyRound_eq_floor_or_ceil y with h | h <;> omega

theorem radiansToAwmf0108_zero : radiansToAwmf0108 0 = 0 := by
  rw [radiansToAwmf0108_eq_pyRound]
  have h2pi : (0 : ℝ) < 2 * π := by positivity
  rw [pyMod_eq_self le_rfl h2pi, zero_div]
  have h0 : pyRound (0 : ℝ) = 0 := by simpa using pyRound_intCast 0
  rw [h0]
  norm_num

theorem radiansToAwmf0108_pi : radiansToAwmf0108 π = 16 := by
  rw [radiansToAwmf0108_eq_pyRound]
  have hlt : π < 2 * π := by nlinarith [pi_pos]
  rw [pyMod_eq_self pi_pos.le hlt]
  have h2 : π / (2 * π / 32) = ((16 : ℤ) : ℝ) := by
    rw [div_div_eq_mul_div, div_eq_iff (by positivity : (2 * π : ℝ) ≠ 0)]
    push_cast
    ring
  rw [h2, pyRound_intCast]
  norm_num

/-! ## Dictionary and list-shape lemmas -/

theorem pyDict_append (l : List (Quadrant × ℝ)) (kv : Quadrant × ℝ) (q : Quadrant) :
    pyDict (l ++ [kv]) q = if q = kv.1 then some kv.2 else pyDict l q := by
  simp [pyDict, List.foldl_append]

/-- A dict built from a binding list by in-order insertion holds, for each key, the
value of that key's last binding. -/
theorem pyDict_eq_getLast (l : List (Quadrant × ℝ)) (q : Quadrant) :
    pyDict l q = ((l.filter fun kv => kv.1 = q).getLast?).map Prod.snd := by
  induction l using List.reverseRecOn with
  | nil => rfl
  | append_singleton l kv ih =>
      rw [pyDict_append, List.filter_append]
      by_cases h : kv.1 = q
      · simp [h]
      · have hq : ¬q = kv.1 := fun hqq => h hqq.symm
        simp [h, hq, ih]

theorem pyDict_isSome_iff (l : List (Quadrant × ℝ)) (q : Quadrant) :
    (pyDict l q).isSome ↔ q ∈ l.map Prod.fst := by
  rw [pyDict_eq_getLast]
  rcases hl : (l.filter fun kv => kv.1 = q).getLast? with _ | kv
  · simp only [hl, Option.map_none', Option.isSome_none, Bool.false_eq_true, false_iff]
    rw [List.getLast?_eq_none_iff] at hl
    intro hq
    rcases List.mem_map.mp hq with ⟨ab, hab, hfst⟩
    have hmem : ab ∈ l.filter fun kv => kv.1 = q :=
      List.mem_filter.mpr ⟨hab, by simp [hfst]⟩
    rw [hl] at hmem
    exact absurd hmem (List.not_mem_nil ab)
  · simp only [hl, Option.map_some', Option.isSome_some, true_iff]
    have hmem : kv ∈ l.filter fun kv => kv.1 = q := by
      rcases List.mem_getLast?_eq_getLast (Option.mem_def.mpr hl) with ⟨hne, hx⟩
      rw [hx]
      exact List.getLast_mem hne
    rcases List.mem_filter.mp hmem with ⟨hmeml, hpred⟩
    exact List.mem_map.mpr ⟨kv, hmeml, by simpa using hpred⟩

theorem zipWith_getD {α β γ : Type} (f : α → β → γ) (l1 : List α) (l2 : List β) (i : ℕ)
    (h1 : i < l1.length) (h2 : i < l2.length) (d1 : α) (d2 : β) (d3 : γ) :
    (List.zipWith f l1 l2).getD i d3 = f (l1.getD i d1) (l2.getD i d2) := by
  induction l1 generalizing l2 i with
  | nil => simp at h1
  | cons a l ih =>
      cases l2 with
      | nil => simp at h2
      | cons b l2 =>
          cases i with
          | zero => rfl
          | succ n =>
              simp only [List.zipWith_cons_cons, List.getD_cons_succ]
              exact ih l2 n (by simpa using h1) (by simpa using h2)

theorem rawField_length (ns ew : ℝ) (rows cols : ℕ) :
    (rawField ns ew rows cols).length = rows := by
  simp [rawField]

theorem rawField_map_length (ns ew : ℝ) (rows cols : ℕ) :
    (rawField ns ew rows cols).map List.length = List.replicate rows cols := by
  unfold rawField
  rw [List.map_map]
  have h : (List.length ∘ fun i => (List.range cols).map fun j => offsetAt ns ew i j) =
      fun _ => cols := by
    funext i
    simp
  rw [h, List.map_const', List.length_range]

theorem rawField_getD (ns ew : ℝ) (rows cols i j : ℕ) (hi : i < rows) (hj : j < cols) :
    ((rawField ns ew rows cols).getD i []).getD j 0 = offsetAt ns ew i j := by
  have hrow : (rawField ns ew rows cols).getD i [] =
      (List.range cols).map fun j => offsetAt ns ew i j := by
    unfold rawField
    rw [List.getD_eq_getElem?_getD, List.getElem?_map, List.getElem?_range hi]
    rfl
  rw [hrow, List.getD_eq_getElem?_getD, List.getElem?_map, List.getElem?_range hj]
  rfl

theorem invertField_map_length (offsets : List (List ℝ)) (invert : List (List Bool))
    (h : invert.map List.length = offsets.map List.length) :
    (invertField offsets invert).map List.length = offsets.map List.length := by
  induction offsets generalizing invert with
  | nil => simp [invertField]
  | cons o os ih =>
      cases invert with
      | nil => simp at h
      | cons iv ivs =>
          simp only [List.map_cons, List.cons.injEq] at h
          have step : invertField (o :: os) (iv :: ivs) =
              (List.zipWith (fun x b => if b then x + π else x) o iv) :: invertField os ivs :=
            rfl
          rw [step, List.map_cons, List.map_cons, List.length_zipWith, h.1, min_self,
            ih ivs h.2]

theorem invertField_getD (offsets : List (List ℝ)) (invert : List (List Bool)) (i j : ℕ)
    (hi : i < offsets.length) (hi2 : i < invert.length)
    (hj : j < (offsets.getD i []).length) (hj2 : j < (invert.getD i []).length) :
    ((invertField offsets invert).getD i []).getD j 0 =
      (offsets.getD i []).getD j 0 +
        (if (invert.getD i []).getD j false then π else 0) := by
  unfold invertField
  rw [zipWith_getD _ offsets invert i hi hi2 [] [] []]
  rw [zipWith_getD _ _ _ j hj hj2 0 false 0]
  split <;> simp

/-! ## State-transition lemmas -/

theorem getPhaseSettingsRun_fst (st : BeamState) (h : st.phaseSettings = []) :
    (getPhaseSettingsRun st).1 = computeQuantized st := by
  unfold getPhaseSettingsRun
  rw [if_neg (by simp [h])]
  rcases hc : computeQuantized st with _ | ns <;> simp [hc]

theorem getPhaseSettingsRun_snd (st : BeamState) (h : st.phaseSettings = []) :
    (getPhaseSettingsRun st).2 =
      { st with phaseSettingsRaw := computeRawField st,
                phaseSettings := (computeQuantized st).getD [] } := by
  unfold getPhaseSettingsRun
  rw [if_neg (by simp [h])]
  rcases hc : computeQuantized st with _ | ns
  · simp only [hc, Option.getD_none]
    rw [← h]
  · simp [hc]

/-! ## Calibration lemmas -/

theorem minFold_spec (s : ℤ) (l : List (ℤ × ℤ)) (b : ℤ × ℤ) :
    (l.foldl (fun b a => if |a.1 - s| < |b.1 - s| then a else b) b = b ∨
      l.foldl (fun b a => if |a.1 - s| < |b.1 - s| then a else b) b ∈ l) ∧
    |(l.foldl (fun b a => if |a.1 - s| < |b.1 - s| then a else b) b).1 - s| ≤ |b.1 - s| ∧
    ∀ kv ∈ l,
      |(l.foldl (fun b a => if |a.1 - s| < |b.1 - s| then a else b) b).1 - s| ≤ |kv.1 - s| := by
  induction l generalizing b with
  | nil => simp
  | cons a l ih =>
      simp only [List.foldl_cons]
      rcases ih (if |a.1 - s| < |b.1 - s| then a else b) with ⟨hmem, hle, hall⟩
      have hbb : |(if |a.1 - s| < |b.1 - s| then a else b).1 - s| ≤ |b.1 - s| := by
        split
        · omega
        · exact le_refl _
      have hba : |(if |a.1 - s| < |b.1 - s| then a else b).1 - s| ≤ |a.1 - s| := by
        split
        · exact le_refl _
        · omega
      refine ⟨?_, le_trans hle hbb, ?_⟩
      · rcases hmem with h | h
        · rw [h]
          split
          · exact Or.inr (List.mem_cons_self _ _)
          · exact Or.inl rfl
        · exact Or.inr (List.mem_cons_of_mem _ h)
      · intro kv hkv
        rcases List.mem_cons.mp hkv with h | h
        · rw [h]
          exact le_trans hle hba
        · exact hall kv h

theorem minByAbsDiff_spec (s : ℤ) (l : List (ℤ × ℤ)) (p : ℤ × ℤ)
    (h : minByAbsDiff s l = some p) :
    p ∈ l ∧ ∀ kv ∈ l, |p.1 - s| ≤ |kv.1 - s| := by
  cases l with
  | nil => simp [minByAbsDiff] at h
  | cons x xs =>
      simp only [minByAbsDiff, Option.some.injEq] at h
      rcases minFold_spec s xs x with ⟨hmem, hle, hall⟩
      subst h
      constructor
      · rcases hmem with h | h
        · rw [h]
          exact List.mem_cons_self _ _
        · exact List.mem_cons_of_mem _ h
      · intro kv hkv
        rcases List.mem_cons.mp hkv with h | h
        · rw [h]
          exact hle
        · exact hall kv h

theorem applyCalibration_nil (q : Quadrant) (s : ℤ) : applyCalibration q s [] = some s := by
  simp [applyCalibration]

theorem applyCalibration_total (q : Quadrant) (s : ℤ) (cal : CalMap)
    (hok : calEntryOk cal q) (hs0 : 0 ≤ s) (hs31 : s ≤ 31) :
    ∃ r, applyCalibration q s cal = some r ∧ 0 ≤ r ∧ r ≤ 31 := by
  rcases hok with h | ⟨inner, hlook, hne⟩
  · subst h
    exact ⟨s, applyCalibration_nil q s, hs0, hs31⟩
  · have hcal : cal ≠ [] := by
      intro hnil
      rw [hnil] at hlook
      simp [List.lookup] at hlook
    cases inner with
    | nil => exact absurd rfl hne
    | cons x xs =>
        refine ⟨(s - (xs.foldl (fun b a => if |a.1 - s| < |b.1 - s| then a else b) x).2) % 32,
          ?_, Int.emod_nonneg _ (by norm_num), by
            have := Int.emod_lt_of_pos
              (s - (xs.foldl (fun b a => if |a.1 - s| < |b.1 - s| then a else b) x).2)
              (show (0:ℤ) < 32 by norm_num)
            omega⟩
        unfold applyCalibration
        rw [if_pos hcal, hlook]
        simp [minByAbsDiff]

/-! ## The quantization pipeline is total on well-formed geometry -/

theorem zipPairs_map_fst (st : BeamState)
    (hrect : st.antennaGrid.map List.length =
      List.replicate st.antennaGrid.length st.antennaGrid.headI.length)
    (hinv : st.antennaInvert.map List.length = st.antennaGrid.map List.length) :
    (zipPairs st).map Prod.fst = st.antennaGrid.flatten := by
  unfold zipPairs
  apply List.map_fst_zip
  have hraw : (computeRawField st).map List.length = st.antennaGrid.map List.length := by
    unfold computeRawField
    rw [rawField_map_length, hrect]
  have h1 : (invertField (computeRawField st) st.antennaInvert).map List.length =
      st.antennaGrid.map List.length := by
    rw [invertField_map_length _ _ (by rw [hraw, hinv]), hraw]
  apply le_of_eq
  rw [List.length_flatten, List.length_flatten, h1]

theorem computeQuantized_eq_map (st : BeamState)
    (hrect : st.antennaGrid.map List.length =
      List.replicate st.antennaGrid.length st.antennaGrid.headI.length)
    (hinv : st.antennaInvert.map List.length = st.antennaGrid.map List.length)
    (hmem : ∀ q : Quadrant, q ∈ st.antennaGrid.flatten)
    (hcal : ∀ q : Quadrant, calEntryOk st.phaseCal q) :
    (∀ q : Quadrant, ∃ r,
      ((pyDict (zipPairs st) q).bind fun v =>
        applyCalibration q (radiansToAwmf0108 v) st.phaseCal) = some r ∧
      0 ≤ r ∧ r ≤ 31) ∧
    computeQuantized st =
      some (([Quadrant.NE, Quadrant.SE, Quadrant.SW, Quadrant.NW]).map fun q =>
        ((pyDict (zipPairs st) q).bind fun v =>
          applyCalibration q (radiansToAwmf0108 v) st.phaseCal).getD 0) := by
  have hsome : ∀ q : Quadrant, ∃ r,
      ((pyDict (zipPairs st) q).bind fun v =>
        applyCalibration q (radiansToAwmf0108 v) st.phaseCal) = some r ∧ 0 ≤ r ∧ r ≤ 31 := by
    intro q
    have hq : (pyDict (zipPairs st) q).isSome := by
      rw [pyDict_isSome_iff, zipPairs_map_fst st hrect hinv]
      exact hmem q
    rcases Option.isSome_iff_exists.mp hq with ⟨v, hv⟩
    rcases applyCalibration_total q (radiansToAwmf0108 v) st.phaseCal (hcal q)
      (radiansToAwmf0108_mem v).1 (radiansToAwmf0108_mem v).2 with ⟨r, hr, h0, h31⟩
    refine ⟨r, ?_, h0, h31⟩
    rw [hv]
    simpa using hr
  refine ⟨hsome, ?_⟩
  obtain ⟨rNE, hNE, _, _⟩ := hsome Quadrant.NE
  obtain ⟨rSE, hSE, _, _⟩ := hsome Quadrant.SE
  obtain ⟨rSW, hSW, _, _⟩ := hsome Quadrant.SW
  obtain ⟨rNW, hNW, _, _⟩ := hsome Quadrant.NW
  simp only [computeQuantized]
  simp only [mapOpt, hNE, hSE, hSW, hNW, Option.some_bind, Option.map_some',
    List.map_cons, List.map_nil, Option.getD_some]

/-! ## Claim theorems -/

/-- C1: for every antenna grid and inversion mask of matching (rectangular)
dimensions whose grid contains all four quadrant labels, and any usable
calibration table, an uncached `getPhaseSettings()` returns exactly the 4-element
list whose i-th entry is the pipeline value (dict lookup, quantization,
calibration) of the i-th label of the fixed canonical order `[NE, SE, SW, NW]` —
so the result order is by label, independent of the physical grid layout — and
each per-label value is an integer in `[0, 31]`. -/
theorem c1_getPhaseSettings_canonical (st : BeamState)
    (hfresh : st.phaseSettings = [])
    (hrect : st.antennaGrid.map List.length =
      List.replicate st.antennaGrid.length st.antennaGrid.headI.length)
    (hinv : st.antennaInvert.map List.length = st.antennaGrid.map List.length)
    (hmem : ∀ q : Quadrant, q ∈ st.antennaGrid.flatten)
    (hcal : ∀ q : Quadrant, calEntryOk st.phaseCal q) :
    (∀ q : Quadrant, ∃ r,
      ((pyDict (zipPairs st) q).bind fun v =>
        applyCalibration q (radiansToAwmf0108 v) st.phaseCal) = some r ∧
      0 ≤ r ∧ r ≤ 31) ∧
    (getPhaseSettingsRun st).1 =
      some (([Quadrant.NE, Quadrant.SE, Quadrant.SW, Quadrant.NW]).map fun q =>
        ((pyDict (zipPairs st) q).bind fun v =>
          applyCalibration q (radiansToAwmf0108 v) st.phaseCal).getD 0) := by
  obtain ⟨h1, h2⟩ := computeQuantized_eq_map st hrect hinv hmem hcal
  refine ⟨h1, ?_⟩
  rw [getPhaseSettingsRun_fst st hfresh, h2]

/-- Witness for C1 at the default 1x4 geometry of `BeamDefinition.__init__`,
steering request `theta = 30`, `phi = 90`, `wavelength = 1`, no calibration. -/
theorem c1_getPhaseSettings_canonical_witness :
    (∀ q : Quadrant, ∃ r,
      ((pyDict (zipPairs (mkBeamDefinition 30 90 1 [] 1)) q).bind fun v =>
        applyCalibration q (radiansToAwmf0108 v)
          (mkBeamDefinition 30 90 1 [] 1).phaseCal) = some r ∧
      0 ≤ r ∧ r ≤ 31) ∧
    (getPhaseSettingsRun (mkBeamDefinition 30 90 1 [] 1)).1 =
      some (([Quadrant.NE, Quadrant.SE, Quadrant.SW, Quadrant.NW]).map fun q =>
        ((pyDict (zipPairs (mkBeamDefinition 30 90 1 [] 1)) q).bind fun v =>
          applyCalibration q (radiansToAwmf0108 v)
            (mkBeamDefinition 30 90 1 [] 1).phaseCal).getD 0) :=
  c1_getPhaseSettings_canonical (mkBeamDefinition 30 90 1 [] 1) rfl rfl rfl
    (by intro q; cases q <;> simp [mkBeamDefinition])
    (fun _ => Or.inl rfl)

/-- C2 (amended): with no calibration table at all (falsy map), `_applyCalibration`
returns the quantized setting unmodified; with a table present, it requires a
nonempty entry for the element's quadrant, finds the entry key with minimum
absolute difference from the setting (first such key on ties), subtracts that
key's correction offset and reduces modulo 32 into `[0, 32)`.  A present table
with no entry for the quadrant raises (`KeyError`) instead of returning the
setting unmodified. -/
theorem c2_applyCalibration_amended (q : Quadrant) (s : ℤ) (cal : CalMap) :
    (cal = [] → applyCalibration q s cal = some s) ∧
    (∀ inner, cal.lookup q = some inner → inner ≠ [] →
      ∃ p, p ∈ inner ∧ (∀ kv ∈ inner, |p.1 - s| ≤ |kv.1 - s|) ∧
        applyCalibration q s cal = some ((s - p.2) % 32) ∧
        0 ≤ (s - p.2) % 32 ∧ (s - p.2) % 32 < 32) := by
  constructor
  · intro h
    subst h
    exact applyCalibration_nil q s
  · intro inner hlook hne
    have hcal : cal ≠ [] := by
      intro hnil
      rw [hnil] at hlook
      simp [List.lookup] at hlook
    cases inner with
    | nil => exact absurd rfl hne
    | cons x xs =>
        have hmin : minByAbsDiff s (x :: xs) =
            some (xs.foldl (fun b a => if |a.1 - s| < |b.1 - s| then a else b) x) := by
          simp [minByAbsDiff]
        rcases minByAbsDiff_spec s (x :: xs) _ hmin with ⟨hmem, hall⟩
        refine ⟨_, hmem, hall, ?_, Int.emod_nonneg _ (by norm_num),
          Int.emod_lt_of_pos _ (by norm_num)⟩
        unfold applyCalibration
        rw [if_pos hcal, hlook]
        simp [hmin]

/-- C2 counterexample: a calibration table holding only an `NE` entry makes an `SW`
lookup raise `KeyError` (modelled `none`); the claim instead demands the setting
back unmodified (`some 5`). -/
theorem c2_applyCalibration_counterexample :
    applyCalibration Quadrant.SW 5 [(Quadrant.NE, [(10, 2)])] = none ∧
    applyCalibration Quadrant.SW 5 [(Quadrant.NE, [(10, 2)])] ≠ some 5 := by
  constructor
  · rfl
  · decide

/-- Witness for C2 at the spec's own example: quadrant `NE`, quantized setting 31,
table `{NE: {10: 2}}`; the nearest key is 10 and the result is `(31 - 2) % 32`. -/
theorem c2_applyCalibration_amended_witness :
    ∃ p, p ∈ [((10 : ℤ), (2 : ℤ))] ∧
      (∀ kv ∈ [((10 : ℤ), (2 : ℤ))], |p.1 - 31| ≤ |kv.1 - 31|) ∧
      applyCalibration Quadrant.NE 31 [(Quadrant.NE, [(10, 2)])] = some ((31 - p.2) % 32) ∧
      0 ≤ (31 - p.2) % 32 ∧ (31 - p.2) % 32 < 32 :=
  (c2_applyCalibration_amended Quadrant.NE 31 [(Quadrant.NE, [(10, 2)])]).2
    [(10, 2)] rfl (by decide)

theorem mapOpt_isSome_iff (f : Quadrant → Option ℤ) (qs : List Quadrant) :
    (mapOpt f qs).isSome ↔ ∀ q ∈ qs, (f q).isSome := by
  induction qs with
  | nil => simp [mapOpt]
  | cons q qs ih =>
      cases hq : f q with
      | none => simp [mapOpt, hq]
      | some v => simp [mapOpt, hq, ih]

/-- C10: an uncached `getPhaseSettings()` (here with no calibration, a rectangular
grid and a matching mask) succeeds exactly when every quadrant label occurs
somewhere in the grid — a missing label raises `KeyError` — and, because the
grid-to-offset dict is built by zipping the flattened lists with later bindings
overwriting earlier ones, the value reported for each label is the quantized
offset of that label's **last** occurrence in row-major order. -/
theorem c10_getPhaseSettings_domain (st : BeamState)
    (hfresh : st.phaseSettings = [])
    (hrect : st.antennaGrid.map List.length =
      List.replicate st.antennaGrid.length st.antennaGrid.headI.length)
    (hinvshape : st.antennaInvert.map List.length = st.antennaGrid.map List.length)
    (hcal : st.phaseCal = []) :
    ((getPhaseSettingsRun st).1.isSome ↔ ∀ q : Quadrant, q ∈ st.antennaGrid.flatten) ∧
    ((∀ q : Quadrant, q ∈ st.antennaGrid.flatten) →
      (getPhaseSettingsRun st).1 =
        some (([Quadrant.NE, Quadrant.SE, Quadrant.SW, Quadrant.NW]).map fun q =>
          radiansToAwmf0108
            (((((zipPairs st).filter fun kv => kv.1 = q).getLast?).map Prod.snd).getD 0))) := by
  rw [getPhaseSettingsRun_fst st hfresh]
  have hfe : (fun q => (pyDict (zipPairs st) q).bind fun v =>
      applyCalibration q (radiansToAwmf0108 v) st.phaseCal) =
      fun q => (pyDict (zipPairs st) q).map radiansToAwmf0108 := by
    funext q
    rcases hd : pyDict (zipPairs st) q with _ | v <;>
      simp [hd, hcal, applyCalibration_nil]
  have hcq : computeQuantized st =
      mapOpt (fun q => (pyDict (zipPairs st) q).map radiansToAwmf0108)
        [Quadrant.NE, Quadrant.SE, Quadrant.SW, Quadrant.NW] := by
    simp only [computeQuantized]
    rw [hfe]
  constructor
  · rw [hcq, mapOpt_isSome_iff]
    constructor
    · intro h q
      have hq := h q (by cases q <;> simp)
      rw [Option.isSome_map'] at hq
      rw [← zipPairs_map_fst st hrect hinvshape, ← pyDict_isSome_iff]
      exact hq
    · intro h q _
      rw [Option.isSome_map', pyDict_isSome_iff, zipPairs_map_fst st hrect hinvshape]
      exact h q
  · intro hmem
    have hq : ∀ q : Quadrant, pyDict (zipPairs st) q =
        some (((((zipPairs st).filter fun kv => kv.1 = q).getLast?).map Prod.snd).getD 0) := by
      intro q
      have hs : (pyDict (zipPairs st) q).isSome := by
        rw [pyDict_isSome_iff, zipPairs_map_fst st hrect hinvshape]
        exact hmem q
      rw [pyDict_eq_getLast] at hs ⊢
      rcases ho : ((zipPairs st).filter fun kv => kv.1 = q).getLast? with _ | kv
      · rw [ho] at hs
        simp at hs
      · rw [ho]
        rfl
    rw [hcq]
    simp only [mapOpt, hq, Option.map_some', Option.some_bind, List.map_cons, List.map_nil]

/-- Witness for C10 on a 2x4 grid in which `NE` occurs five times (so the
last-occurrence rule is exercised) and every label occurs at least once. -/
noncomputable def dupLabelState : BeamState :=
  { theta := 0
    phi := 0
    beamStrength := 1
    waveLength := 1
    antennaGrid := [[Quadrant.NE, Quadrant.NW, Quadrant.SE, Quadrant.SW],
                    [Quadrant.NE, Quadrant.NE, Quadrant.NE, Quadrant.NE]]
    antennaInvert := [[false, false, false, false], [false, false, false, false]]
    antennaSpacing := 1
    phaseSettings := []
    phaseSettingsRaw := []
    gainSettings := []
    phaseCal := [] }

theorem c10_getPhaseSettings_domain_witness :
    (((getPhaseSettingsRun dupLabelState).1.isSome ↔
        ∀ q : Quadrant, q ∈ dupLabelState.antennaGrid.flatten) ∧
      ((∀ q : Quadrant, q ∈ dupLabelState.antennaGrid.flatten) →
        (getPhaseSettingsRun dupLabelState).1 =
          some (([Quadrant.NE, Quadrant.SE, Quadrant.SW, Quadrant.NW]).map fun q =>
            radiansToAwmf0108
              (((((zipPairs dupLabelState).filter fun kv => kv.1 = q).getLast?).map
                Prod.snd).getD 0)))) :=
  c10_getPhaseSettings_domain dupLabelState rfl rfl rfl rfl

theorem getRelativeGainRun_fst (st : BeamState) (h : st.gainSettings = []) :
    (getRelativeGainRun st).1 = computeGains st := by
  unfold getRelativeGainRun
  rw [if_neg (by simp [h])]
  rcases hc : computeGains st with _ | g <;> simp [hc]

/-- C7 (amended): for every nonzero `beamStrength`, an uncached
`getRelativeGain()` returns a field of the grid's dimensions in which every entry
is exactly `1.0` (`beamStrength / beamStrength`), independent of the particular
`beamStrength`.  At `beamStrength = 0` the division raises `ZeroDivisionError`
instead (see the counterexample). -/
theorem c7_getRelativeGain_uniform (st : BeamState) (hfresh : st.gainSettings = [])
    (hb : st.beamStrength ≠ 0) :
    (getRelativeGainRun st).1 =
      some (List.replicate st.antennaGrid.length
        (List.replicate st.antennaGrid.headI.length (1 : ℝ))) := by
  rw [getRelativeGainRun_fst st hfresh]
  unfold computeGains
  by_cases h : st.antennaGrid.length = 0 ∨ st.antennaGrid.headI.length = 0
  · rw [if_pos h]
    rcases h with h | h <;> simp [h]
  · rw [if_neg h]
    simp [pyDiv, hb, div_self]

/-- C7 counterexample: with `beamStrength = 0` (legal per the claim's "every
beamStrength value") the computation `0 / 0` raises `ZeroDivisionError` in Python,
modelled `none` — `getRelativeGain()` does not return the all-ones field. -/
theorem c7_getRelativeGain_counterexample :
    (getRelativeGainRun (mkBeamDefinition 0 0 1 [] 0)).1 = none := by
  rw [getRelativeGainRun_fst _ rfl]
  unfold computeGains
  rw [if_neg (by norm_num [mkBeamDefinition])]
  simp [pyDiv, mkBeamDefinition]

theorem c7_getRelativeGain_uniform_witness :
    (getRelativeGainRun (mkBeamDefinition 0 0 1 [] 1)).1 =
      some (List.replicate (mkBeamDefinition 0 0 1 [] 1).antennaGrid.length
        (List.replicate (mkBeamDefinition 0 0 1 [] 1).antennaGrid.headI.length (1 : ℝ))) :=
  c7_getRelativeGain_uniform (mkBeamDefinition 0 0 1 [] 1) rfl one_ne_zero

theorem getRawPhaseSettingsRun_cached (st : BeamState) (h : st.phaseSettingsRaw ≠ []) :
    (getRawPhaseSettingsRun st).1 = some st.phaseSettingsRaw := by
  unfold getRawPhaseSettingsRun
  rw [if_neg h]

/-- C3 (amended): `setAntenna` replaces the geometry and unconditionally clears the
`phaseSettings` and `gainSettings` caches, so the next `getPhaseSettings()` /
`getRelativeGain()` recompute from the new geometry; but it leaves
`phaseSettingsRaw` untouched, so a direct `getRawPhaseSettings()` call after
`setAntenna()` can return the stale raw field (see the counterexample). -/
theorem c3_setAntenna_invalidates (st : BeamState) (grid : List (List Quadrant))
    (inv : List (List Bool)) (sp : ℝ) :
    (setAntenna st grid inv sp).phaseSettings = [] ∧
    (setAntenna st grid inv sp).gainSettings = [] ∧
    (setAntenna st grid inv sp).phaseSettingsRaw = st.phaseSettingsRaw ∧
    (getPhaseSettingsRun (setAntenna st grid inv sp)).1 =
      computeQuantized (setAntenna st grid inv sp) ∧
    (getRelativeGainRun (setAntenna st grid inv sp)).1 =
      computeGains (setAntenna st grid inv sp) :=
  ⟨rfl, rfl, rfl, getPhaseSettingsRun_fst _ rfl, getRelativeGainRun_fst _ rfl⟩

/-- Initial controller for the C3 counterexample: default 1x4 geometry. -/
noncomputable def c3State0 : BeamState := mkBeamDefinition 0 0 1 [] 1

/-- After a completed `getPhaseSettings()` call, `setAntenna` switches to a 2x2
grid with a different spacing. -/
noncomputable def c3State2 : BeamState :=
  setAntenna (getPhaseSettingsRun c3State0).2
    [[Quadrant.NW, Quadrant.NE], [Quadrant.SW, Quadrant.SE]]
    [[true, false], [true, false]] 1

/-- C3 counterexample: after `getPhaseSettings()` on the 1x4 geometry and a
`setAntenna()` switch to a 2x2 geometry, `getRawPhaseSettings()` returns the stale
raw field of the **old** geometry, not a recomputation from the new one. -/
theorem c3_setAntenna_counterexample :
    (getRawPhaseSettingsRun c3State2).1 = some (computeRawField c3State0) ∧
    (getRawPhaseSettingsRun c3State2).1 ≠ some (computeRawField c3State2) := by
  have hraw2 : c3State2.phaseSettingsRaw = computeRawField c3State0 := by
    show (getPhaseSettingsRun c3State0).2.phaseSettingsRaw = computeRawField c3State0
    rw [getPhaseSettingsRun_snd c3State0 rfl]
  have hlen0 : (computeRawField c3State0).length = 1 := by
    unfold computeRawField
    rw [rawField_length]
    rfl
  have hne : c3State2.phaseSettingsRaw ≠ [] := by
    rw [hraw2]
    intro h
    rw [h] at hlen0
    simp at hlen0
  have h1 : (getRawPhaseSettingsRun c3State2).1 = some (computeRawField c3State0) := by
    rw [getRawPhaseSettingsRun_cached c3State2 hne, hraw2]
  refine ⟨h1, ?_⟩
  rw [h1]
  intro h
  have h2 := congrArg List.length (Option.some.inj h)
  rw [hlen0] at h2
  have hlen2 : (computeRawField c3State2).length = 2 := by
    unfold computeRawField
    rw [rawField_length]
    rfl
  rw [hlen2] at h2
  exact absurd h2 (by norm_num)

/-- C5: `_radiansToAwmf0108` reduces its argument modulo 2π into `[0, 2π)`, rounds
the reduced value to the nearest multiple of `interval = 2π/32` (the divide-and-
truncate step collapses to the rounded ratio), and clamps a boundary result of 32
to 0; consequently a raw phase of exactly `2π − ε` (for `0 < ε ≤ π/32`) quantizes
to 0, not 32. -/
theorem c5_radiansToAwmf0108_boundary (r ε : ℝ) (hε0 : 0 < ε) (hε : ε ≤ π / 32) :
    (0 ≤ pyMod r (2 * π) ∧ pyMod r (2 * π) < 2 * π) ∧
    radiansToAwmf0108 r =
      (if pyRound (pyMod r (2 * π) / (2 * π / 32)) = 32 then 0
       else pyRound (pyMod r (2 * π) / (2 * π / 32))) ∧
    radiansToAwmf0108 (2 * π - ε) = 0 := by
  have h2pi : (0 : ℝ) < 2 * π := by positivity
  refine ⟨⟨pyMod_nonneg _ h2pi, pyMod_lt _ h2pi⟩, radiansToAwmf0108_eq_pyRound r, ?_⟩
  have hlt : 2 * π - ε < 2 * π := by linarith
  have hge : 0 ≤ 2 * π - ε := by nlinarith [pi_pos]
  rw [radiansToAwmf0108_eq_pyRound, pyMod_eq_self hge hlt]
  have hyval : (2 * π - ε) / (2 * π / 32) = 32 - ε * 16 / π := by
    field_simp
    ring
  have hd1 : 0 < ε * 16 / π := by positivity
  have hd2 : ε * 16 / π ≤ 1 / 2 := by
    rw [div_le_iff₀ pi_pos]
    nlinarith
  have hfl : ⌊(32 : ℝ) - ε * 16 / π⌋ = 31 := by
    rw [Int.floor_eq_iff]
    constructor
    · push_cast
      linarith
    · push_cast
      linarith
  have hfract : Int.fract ((32 : ℝ) - ε * 16 / π) = 1 - ε * 16 / π := by
    rw [Int.fract, hfl]
    push_cast
    ring
  have hpr : pyRound ((32 : ℝ) - ε * 16 / π) = 32 := by
    unfold pyRound
    rw [hfract, hfl]
    by_cases hhalf : ε * 16 / π < 1 / 2
    · rw [if_neg (by linarith), if_pos (by linarith)]
      norm_num
    · have heq : ε * 16 / π = 1 / 2 := le_antisymm hd2 (not_lt.mp hhalf)
      rw [heq]
      have hodd : ¬ Even (31 : ℤ) := by decide
      rw [if_neg (by norm_num), if_neg (by norm_num), if_neg hodd]
      norm_num
  rw [hyval, hpr]
  simp

theorem c5_radiansToAwmf0108_boundary_witness :
    (0 ≤ pyMod 0 (2 * π) ∧ pyMod 0 (2 * π) < 2 * π) ∧
    radiansToAwmf0108 0 =
      (if pyRound (pyMod 0 (2 * π) / (2 * π / 32)) = 32 then 0
       else pyRound (pyMod 0 (2 * π) / (2 * π / 32))) ∧
    radiansToAwmf0108 (2 * π - π / 32) = 0 :=
  c5_radiansToAwmf0108_boundary 0 (π / 32) (by positivity) le_rfl

theorem getD_map_length {α : Type} (l : List (List α)) (i : ℕ) :
    (l.map List.length).getD i 0 = (l.getD i []).length := by
  rw [List.getD_eq_getElem?_getD, List.getD_eq_getElem?_getD, List.getElem?_map]
  cases l[i]? <;> rfl

theorem rawField_getD_row (ns ew : ℝ) (rows cols i : ℕ) (hi : i < rows) :
    (rawField ns ew rows cols).getD i [] =
      (List.range cols).map fun j => offsetAt ns ew i j := by
  unfold rawField
  rw [List.getD_eq_getElem?_getD, List.getElem?_map, List.getElem?_range hi]
  rfl

theorem getD_replicate {α : Type} (n : ℕ) (a : α) (i : ℕ) (d : α) (h : i < n) :
    (List.replicate n a).getD i d = a := by
  rw [List.getD_eq_getElem?_getD, List.getElem?_replicate, if_pos h]
  rfl

/-- C6: the raw phase field built by `getPhaseSettings` has reference phase 0 at
`[0][0]`, accumulates `ns_phaseOffset` down the first column and `ew_phaseOffset`
across each row; the raw (pre-inversion) field is stored and returned by
`getRawPhaseSettings`, while the field handed to quantization adds π exactly at
the positions where the inversion mask is true. -/
theorem c6_phase_field (st : BeamState) (hfresh : st.phaseSettings = [])
    (hrect : st.antennaGrid.map List.length =
      List.replicate st.antennaGrid.length st.antennaGrid.headI.length)
    (hinvshape : st.antennaInvert.map List.length = st.antennaGrid.map List.length)
    (i j : ℕ) (hi : i < st.antennaGrid.length) (hj : j < st.antennaGrid.headI.length) :
    (((computeRawField st).getD 0 []).getD 0 0 = 0) ∧
    (0 < i → ((computeRawField st).getD i []).getD 0 0 =
      ((computeRawField st).getD (i - 1) []).getD 0 0 + nsPhaseOffset st) ∧
    (0 < j → ((computeRawField st).getD i []).getD j 0 =
      ((computeRawField st).getD i []).getD (j - 1) 0 + ewPhaseOffset st) ∧
    ((getPhaseSettingsRun st).2.phaseSettingsRaw = computeRawField st) ∧
    ((getRawPhaseSettingsRun (getPhaseSettingsRun st).2).1 = some (computeRawField st)) ∧
    (((invertField (computeRawField st) st.antennaInvert).getD i []).getD j 0 =
      ((computeRawField st).getD i []).getD j 0 +
        (if (st.antennaInvert.getD i []).getD j false then π else 0)) := by
  have hrows : 0 < st.antennaGrid.length := Nat.lt_of_le_of_lt (Nat.zero_le _) hi
  have hcols : 0 < st.antennaGrid.headI.length := Nat.lt_of_le_of_lt (Nat.zero_le _) hj
  have hlen : (computeRawField st).length = st.antennaGrid.length := by
    unfold computeRawField
    rw [rawField_length]
  refine ⟨?_, ?_, ?_, ?_, ?_, ?_⟩
  · unfold computeRawField
    rw [rawField_getD _ _ _ _ 0 0 hrows hcols]
    simp [offsetAt, colOffset0]
  · intro hi0
    obtain ⟨k, rfl⟩ : ∃ k, i = k + 1 := ⟨i - 1, (Nat.succ_pred_eq_of_pos hi0).symm⟩
    unfold computeRawField
    rw [rawField_getD _ _ _ _ (k + 1) 0 hi hcols,
      rawField_getD _ _ _ _ ((k + 1) - 1) 0 (by omega) hcols]
    simp [offsetAt, colOffset0]
  · intro hj0
    obtain ⟨k, rfl⟩ : ∃ k, j = k + 1 := ⟨j - 1, (Nat.succ_pred_eq_of_pos hj0).symm⟩
    unfold computeRawField
    rw [rawField_getD _ _ _ _ i (k + 1) hi hj,
      rawField_getD _ _ _ _ i ((k + 1) - 1) hi (by omega)]
    simp [offsetAt]
  · rw [getPhaseSettingsRun_snd st hfresh]
  · have hraw : (getPhaseSettingsRun st).2.phaseSettingsRaw = computeRawField st := by
      rw [getPhaseSettingsRun_snd st hfresh]
    have hne : (getPhaseSettingsRun st).2.phaseSettingsRaw ≠ [] := by
      rw [hraw]
      intro h
      rw [h] at hlen
      simp at hlen
      omega
    rw [getRawPhaseSettingsRun_cached _ hne, hraw]
  · have hinvlen : st.antennaInvert.length = st.antennaGrid.length := by
      have h := congrArg List.length hinvshape
      simpa using h
    have hrowlen : ((computeRawField st).getD i []).length =
        st.antennaGrid.headI.length := by
      unfold computeRawField
      rw [rawField_getD_row _ _ _ _ i hi]
      simp
    have hinvrow : (st.antennaInvert.getD i []).length =
        st.antennaGrid.headI.length := by
      rw [← getD_map_length, hinvshape, hrect, getD_replicate _ _ _ _ hi]
    rw [invertField_getD _ _ i j (by omega) (by omega) (by omega) (by omega)]

/-- Witness geometry for C6: the 2x2 grid and inversion pattern of the demo GUI. -/
noncomputable def c6State : BeamState :=
  { theta := degToRad 10
    phi := degToRad 90
    beamStrength := 1
    waveLength := 1
    antennaGrid := [[Quadrant.NW, Quadrant.NE], [Quadrant.SW, Quadrant.SE]]
    antennaInvert := [[true, false], [true, false]]
    antennaSpacing := 1
    phaseSettings := []
    phaseSettingsRaw := []
    gainSettings := []
    phaseCal := [] }

theorem c6_phase_field_witness :
    (((computeRawField c6State).getD 0 []).getD 0 0 = 0) ∧
    (0 < 1 → ((computeRawField c6State).getD 1 []).getD 0 0 =
      ((computeRawField c6State).getD (1 - 1) []).getD 0 0 + nsPhaseOffset c6State) ∧
    (0 < 1 → ((computeRawField c6State).getD 1 []).getD 1 0 =
      ((computeRawField c6State).getD 1 []).getD (1 - 1) 0 + ewPhaseOffset c6State) ∧
    ((getPhaseSettingsRun c6State).2.phaseSettingsRaw = computeRawField c6State) ∧
    ((getRawPhaseSettingsRun (getPhaseSettingsRun c6State).2).1 =
      some (computeRawField c6State)) ∧
    (((invertField (computeRawField c6State) c6State.antennaInvert).getD 1 []).getD 1 0 =
      ((computeRawField c6State).getD 1 []).getD 1 0 +
        (if (c6State.antennaInvert.getD 1 []).getD 1 false then π else 0)) :=
  c6_phase_field c6State rfl rfl rfl 1 1 (by decide) (by decide)

/-- C8 (amended): phi is normalized into `[0, 360)` only in the GUI input path —
`sketchAfPattern` regulates the phi spin box with `% 360` before sketching — and
since phi enters the core only through sine and cosine (period 2π), the
regulation never changes a core result; but `BeamDefinition` itself stores
`radians(phi)` without any normalization (its own tests pass `phi = -90`
directly), and theta is likewise stored unnormalized. -/
theorem c8_phi_regulation (phi theta waveLength : ℝ) (cal : CalMap) (b : ℝ) :
    (0 ≤ regulatePhi phi ∧ regulatePhi phi < 360) ∧
    (Real.sin (degToRad (regulatePhi phi)) = Real.sin (degToRad phi) ∧
      Real.cos (degToRad (regulatePhi phi)) = Real.cos (degToRad phi)) ∧
    ((mkBeamDefinition theta phi waveLength cal b).phi = degToRad phi ∧
      (mkBeamDefinition theta phi waveLength cal b).theta = degToRad theta) := by
  have h360 : (0 : ℝ) < 360 := by norm_num
  refine ⟨?_, ?_, rfl, rfl⟩
  · unfold regulatePhi
    split
    · exact ⟨pyMod_nonneg _ h360, pyMod_lt _ h360⟩
    · rename_i hcond
      push_neg at hcond
      exact ⟨hcond.1, hcond.2⟩
  · unfold regulatePhi
    split
    · have key : degToRad (pyMod phi 360) =
          degToRad phi - (⌊phi / 360⌋ : ℤ) * (2 * π) := by
        unfold degToRad pyMod
        ring
      rw [key, Real.sin_sub_int_mul_two_pi, Real.cos_sub_int_mul_two_pi]
      exact ⟨rfl, rfl⟩
    · exact ⟨rfl, rfl⟩

/-- C8 counterexample: the repository's own test path constructs
`BeamDefinition(-30, -90, w)`; the azimuth actually used by the core is
`radians(-90) = -π/2`, which is negative — phi was not normalized into `[0, 360)`
before use. -/
theorem c8_phi_counterexample :
    (mkBeamDefinition (-30) (-90) 1 [] 1).phi = -(π / 2) ∧
    (mkBeamDefinition (-30) (-90) 1 [] 1).phi < 0 := by
  have h : (mkBeamDefinition (-30) (-90) 1 [] 1).phi = -(π / 2) := by
    show degToRad (-90) = -(π / 2)
    unfold degToRad
    ring
  refine ⟨h, ?_⟩
  rw [h]
  have := pi_pos
  linarith

/-! ## Normalization-stage lemmas for the array-factor sampler -/

theorem afMagFold_of_le_one :
    ∀ points : List (ℝ × ℝ × ℝ), (∀ x ∈ points, |x.2.2| ≤ 1) → afMagFold points = -1
  | [], _ => rfl
  | x :: l, h => by
      have hx : ¬|x.2.2| > |(-1 : ℝ)| := by
        rw [abs_neg, abs_one]
        exact not_lt.mpr (h x (List.mem_cons_self _ _))
      have ih := afMagFold_of_le_one l fun y hy => h y (List.mem_cons_of_mem _ hy)
      unfold afMagFold at ih ⊢
      rw [List.foldl_cons, if_neg hx]
      exact ih

theorem afFold_stay (M : ℝ) (hM : 0 ≤ M) :
    ∀ l : List (ℝ × ℝ × ℝ), (∀ x ∈ l, 0 ≤ x.2.2 ∧ x.2.2 ≤ M) →
      l.foldl (fun cur tpa => if |tpa.2.2| > |cur| then tpa.2.2 else cur) M = M
  | [], _ => rfl
  | x :: l, h => by
      have hx := h x (List.mem_cons_self _ _)
      have hnx : ¬|x.2.2| > |M| := by
        rw [abs_of_nonneg hx.1, abs_of_nonneg hM]
        exact not_lt.mpr hx.2
      rw [List.foldl_cons, if_neg hnx]
      exact afFold_stay M hM l fun y hy => h y (List.mem_cons_of_mem _ hy)

theorem afFold_reach (M : ℝ) (hM1 : 1 < M) :
    ∀ (l : List (ℝ × ℝ × ℝ)) (acc : ℝ), M ∈ l.map (fun x => x.2.2) →
      (∀ x ∈ l, 0 ≤ x.2.2 ∧ x.2.2 ≤ M) → |acc| < M →
      l.foldl (fun cur tpa => if |tpa.2.2| > |cur| then tpa.2.2 else cur) acc = M
  | [], acc, hmem, _, _ => by simp at hmem
  | x :: l, acc, hmem, hb, hacc => by
      rw [List.foldl_cons]
      by_cases hxM : x.2.2 = M
      · have hgt : |x.2.2| > |acc| := by
          rw [hxM, abs_of_nonneg (by linarith : (0 : ℝ) ≤ M)]
          exact hacc
        rw [if_pos hgt, hxM]
        exact afFold_stay M (by linarith) l fun y hy => hb y (List.mem_cons_of_mem _ hy)
      · have hmem' : M ∈ l.map (fun x => x.2.2) := by
          rcases List.mem_map.mp hmem with ⟨y, hy, hyv⟩
          rcases List.mem_cons.mp hy with rfl | hyl
          · exact absurd hyv hxM
          · exact List.mem_map.mpr ⟨y, hyl, hyv⟩
        have hx := hb x (List.mem_cons_self _ _)
        have hacc' : |if |x.2.2| > |acc| then x.2.2 else acc| < M := by
          split
          · rw [abs_of_nonneg hx.1]
            exact lt_of_le_of_ne hx.2 hxM
          · exact hacc
        exact afFold_reach M hM1 l _ hmem'
          (fun y hy => hb y (List.mem_cons_of_mem _ hy)) hacc'

theorem normalizeAf_of_le_one (points : List (ℝ × ℝ × ℝ))
    (h : ∀ x ∈ points, |x.2.2| ≤ 1) : normalizeAf points = points := by
  unfold normalizeAf
  rw [afMagFold_of_le_one points h]
  have hmap : (points.map fun tpa => (tpa.1, tpa.2.1, tpa.2.2 / |(-1 : ℝ)|)) =
      points.map id := by
    apply List.map_congr_left
    rintro ⟨p, q, a⟩ _
    simp
  rw [hmap, List.map_id]

/-- C9: in the degenerate case where every sampled magnitude is exactly zero, the
normalization pass of `generateAllAF` has a well-defined local fallback: no sample
ever exceeds `abs(af_max) = abs(-1)`, so the sentinel survives, the divisor is
`1 ≠ 0`, and the sample list is returned unchanged — no division by zero and no
undefined sample. -/
theorem c9_degenerate_normalization (points : List (ℝ × ℝ × ℝ))
    (h : ∀ x ∈ points, x.2.2 = 0) :
    afMagFold points = -1 ∧ |afMagFold points| = 1 ∧ normalizeAf points = points := by
  have h1 : ∀ x ∈ points, |x.2.2| ≤ 1 := by
    intro x hx
    rw [h x hx]
    norm_num
  refine ⟨afMagFold_of_le_one points h1, ?_, normalizeAf_of_le_one points h1⟩
  rw [afMagFold_of_le_one points h1]
  norm_num

theorem c9_degenerate_normalization_witness :
    afMagFold [((0 : ℝ), (0 : ℝ), (0 : ℝ))] = -1 ∧
    |afMagFold [((0 : ℝ), (0 : ℝ), (0 : ℝ))]| = 1 ∧
    normalizeAf [((0 : ℝ), (0 : ℝ), (0 : ℝ))] = [((0 : ℝ), (0 : ℝ), (0 : ℝ))] :=
  c9_degenerate_normalization _ (by
    intro x hx
    simp only [List.mem_singleton] at hx
    subst hx
    rfl)

/-- C4 (amended): the normalization pass of `generateAllAF` divides by
`abs(af_max)` where `af_max` starts at the sentinel `-1` and is replaced only by
samples strictly exceeding it in absolute value.  When some sampled magnitude
exceeds 1, `af_max` ends at the true maximum `M`, every magnitude is divided by
`M`, and the maximum returned magnitude is exactly 1.  When every sampled
magnitude is at most 1, however, the sentinel survives and the samples are
returned unchanged — the divisor is not the maximum magnitude. -/
theorem c4_normalization_amended (points : List (ℝ × ℝ × ℝ)) :
    ((∀ x ∈ points, 0 ≤ x.2.2 ∧ x.2.2 ≤ 1) → normalizeAf points = points) ∧
    (∀ M : ℝ, M ∈ points.map (fun x => x.2.2) →
      (∀ x ∈ points, 0 ≤ x.2.2 ∧ x.2.2 ≤ M) → 1 < M →
      afMagFold points = M ∧
      normalizeAf points = points.map (fun tpa => (tpa.1, tpa.2.1, tpa.2.2 / M)) ∧
      (1 : ℝ) ∈ (normalizeAf points).map (fun x => x.2.2) ∧
      ∀ b ∈ (normalizeAf points).map (fun x => x.2.2), b ≤ 1) := by
  constructor
  · intro h
    refine normalizeAf_of_le_one points fun x hx => ?_
    rw [abs_of_nonneg (h x hx).1]
    exact (h x hx).2
  · intro M hmem hb hM1
    have hMpos : (0 : ℝ) < M := by linarith
    have hfold : afMagFold points = M := by
      unfold afMagFold
      exact afFold_reach M hM1 points (-1) hmem hb
        (by rw [abs_neg, abs_one]; exact hM1)
    have habs : |afMagFold points| = M := by
      rw [hfold, abs_of_pos hMpos]
    have hnorm : normalizeAf points =
        points.map fun tpa => (tpa.1, tpa.2.1, tpa.2.2 / M) := by
      unfold normalizeAf
      rw [habs]
    refine ⟨hfold, hnorm, ?_, ?_⟩
    · rw [hnorm, List.map_map]
      rcases List.mem_map.mp hmem with ⟨y, hy, hyv⟩
      refine List.mem_map.mpr ⟨y, hy, ?_⟩
      show y.2.2 / M = 1
      rw [hyv, div_self hMpos.ne']
    · intro b hbmem
      rw [hnorm, List.map_map] at hbmem
      rcases List.mem_map.mp hbmem with ⟨y, hy, hyv⟩
      have hbv : b = y.2.2 / M := hyv.symm
      rw [hbv, div_le_one hMpos]
      exact (hb y hy).2

/-- C4 counterexample: the non-degenerate sampled set `[(0, 0, 1/2)]` — its only
magnitude is 1/2, not zero — is returned unchanged by normalization, because 1/2
never exceeds `abs(-1)`; the maximum returned magnitude is 1/2, not 1 as the
claim states. -/
theorem c4_normalization_counterexample :
    normalizeAf [((0 : ℝ), (0 : ℝ), (1 / 2 : ℝ))] = [((0 : ℝ), (0 : ℝ), (1 / 2 : ℝ))] ∧
    ∀ b ∈ (normalizeAf [((0 : ℝ), (0 : ℝ), (1 / 2 : ℝ))]).map (fun x => x.2.2), b ≠ 1 := by
  have h : normalizeAf [((0 : ℝ), (0 : ℝ), (1 / 2 : ℝ))] =
      [((0 : ℝ), (0 : ℝ), (1 / 2 : ℝ))] := by
    refine normalizeAf_of_le_one _ ?_
    intro x hx
    simp only [List.mem_singleton] at hx
    subst hx
    have habs : |(1 / 2 : ℝ)| ≤ 1 := by
      rw [abs_of_nonneg (by norm_num : (0 : ℝ) ≤ 1 / 2)]
      norm_num
    exact habs
  refine ⟨h, ?_⟩
  rw [h]
  intro b hb
  simp only [List.map_cons, List.map_nil, List.mem_singleton] at hb
  rw [hb]
  norm_num

theorem c4_normalization_amended_witness :
    (normalizeAf [((0 : ℝ), (0 : ℝ), (1 : ℝ))] = [((0 : ℝ), (0 : ℝ), (1 : ℝ))]) ∧
    (afMagFold [((0 : ℝ), (0 : ℝ), (2 : ℝ))] = 2 ∧
      normalizeAf [((0 : ℝ), (0 : ℝ), (2 : ℝ))] =
        [((0 : ℝ), (0 : ℝ), (2 : ℝ))].map (fun tpa => (tpa.1, tpa.2.1, tpa.2.2 / 2)) ∧
      (1 : ℝ) ∈ (normalizeAf [((0 : ℝ), (0 : ℝ), (2 : ℝ))]).map (fun x => x.2.2) ∧
      ∀ b ∈ (normalizeAf [((0 : ℝ), (0 : ℝ), (2 : ℝ))]).map (fun x => x.2.2), b ≤ 1) :=
  ⟨(c4_normalization_amended [((0 : ℝ), (0 : ℝ), (1 : ℝ))]).1
      (by
        intro x hx
        simp only [List.mem_singleton] at hx
        subst hx
        norm_num),
    (c4_normalization_amended [((0 : ℝ), (0 : ℝ), (2 : ℝ))]).2 2
      (by simp)
      (by
        intro x hx
        simp only [List.mem_singleton] at hx
        subst hx
        norm_num)
      (by norm_num)⟩
